import Mathlib

/-!
Verification development for the ClickHouse generalized inverted index ("gin"
/ text index) store, `src/Storages/MergeTree/GinIndexStore.h`.

The repository ships only the header: class declarations, the encoding
constants, and a handful of inline member bodies.  Definitions below that
embed an out-of-line member function are therefore modelled from the
specification's description of that member (marked `Modelled from the
spec:`); constants and inline bodies are taken directly from the header.

Machine integers (`UInt32`, `UInt64`) are embedded as `Nat`; none of the
properties verified here exercises overflow.  Byte streams (`WriteBuffer` /
`ReadBuffer`) are embedded as `List Nat` of written symbols, with multi-byte
integer encodings abstracted to one symbol per integer.
-/

namespace GinIndex

/-! ## Postings builder (`GinIndexPostingsBuilder`)

The C++ builder wraps a `roaring::Roaring` 32-bit bitmap, i.e. a finite set
of row ids.  We embed the bitmap as its canonical form: a strictly sorted,
duplicate-free list of row ids, with `add` inserting in order. -/

/-- Encoding constant from the header: cardinalities below this are written
as a flat array (`MIN_SIZE_FOR_ROARING_ENCODING = 16`). -/
def MIN_SIZE_FOR_ROARING_ENCODING : Nat := 16

/-- Encoding constant from the header: roaring payloads above this
cardinality are block-compressed
(`ROARING_ENCODING_COMPRESSION_CARDINALITY_THRESHOLD = 5000`). -/
def ROARING_ENCODING_COMPRESSION_CARDINALITY_THRESHOLD : Nat := 5000

/-- Header-byte flag from the header: `ARRAY_CONTAINER_MASK = 0x1`. -/
def ARRAY_CONTAINER_MASK : Nat := 1

/-- Header-byte flag from the header: `ROARING_CONTAINER_MASK = 0x0`. -/
def ROARING_CONTAINER_MASK : Nat := 0

/-- Header-byte flag from the header: `ROARING_COMPRESSED_MASK = 0x1`. -/
def ROARING_COMPRESSED_MASK : Nat := 1

/-- Header-byte flag from the header: `ROARING_UNCOMPRESSED_MASK = 0x0`. -/
def ROARING_UNCOMPRESSED_MASK : Nat := 0

/-- Ordered duplicate-free insertion into a sorted list: the embedding of
`roaring::Roaring::add`, which adds a value to the bitmap (a set). -/
def insertSorted (r : Nat) : List Nat → List Nat
  | [] => [r]
  | x :: xs =>
    if r < x then r :: x :: xs
    else if r = x then x :: xs
    else x :: insertSorted r xs

/-- Embedding of `GinIndexPostingsBuilder`: its single field `rowids` is a
`roaring::Roaring` bitmap, held here in canonical sorted duplicate-free
form. -/
structure GinIndexPostingsBuilder where
  rowids : List Nat
deriving Repr, DecidableEq

/-- A freshly constructed builder holds the empty bitmap. -/
def GinIndexPostingsBuilder.empty : GinIndexPostingsBuilder := ⟨[]⟩

/-- Modelled from the spec: `GinIndexPostingsBuilder::contains(row_id)`
(body not in the header) is a membership test against the in-memory bitmap
with no side effects. -/
def GinIndexPostingsBuilder.contains (b : GinIndexPostingsBuilder) (r : Nat) : Bool :=
  b.rowids.contains r

/-- Modelled from the spec: `GinIndexPostingsBuilder::add(row_id)` (body not
in the header) inserts `row_id` into the bitmap; set insertion, hence
idempotent on content. -/
def GinIndexPostingsBuilder.add (b : GinIndexPostingsBuilder) (r : Nat) : GinIndexPostingsBuilder :=
  ⟨insertSorted r b.rowids⟩

/-- The builder obtained by adding every row id of `l`, in order, to a fresh
builder. -/
def buildFrom (l : List Nat) : GinIndexPostingsBuilder :=
  l.foldl GinIndexPostingsBuilder.add GinIndexPostingsBuilder.empty

/-- Modelled from the spec: the roaring bitmap's own serialized container
form (`write`/`read` of the external roaring library).  Embedded as the
cardinality followed by the sorted row-id array. -/
def roaringWrite (l : List Nat) : List Nat := l.length :: l

/-- Modelled from the spec: inverse of `roaringWrite`; fails on a truncated
payload. -/
def roaringRead (bs : List Nat) : Option (List Nat) :=
  match bs with
  | [] => none
  | n :: rest => if rest.length = n then some rest else none

/-- Modelled from the spec: the block-compression the roaring bitmap runs on
its own serialized form, an external deterministic byte transform inverted
by `roaringDecompress`; instantiated as the identity transform. -/
def roaringCompress (bs : List Nat) : List Nat := bs

/-- Modelled from the spec: inverse transform of `roaringCompress`. -/
def roaringDecompress (bs : List Nat) : List Nat := bs

/-- Modelled from the spec: `GinIndexPostingsBuilder::serialize` (body not
in the header).  Chooses the encoding by cardinality: below
`MIN_SIZE_FOR_ROARING_ENCODING` a flat sorted array of row ids; otherwise
the roaring container form, block-compressed when the cardinality exceeds
`ROARING_ENCODING_COMPRESSION_CARDINALITY_THRESHOLD`.  The one-byte header
preceding the payload packs the two independent flags from the header file:
bit 0 array/roaring, bit 1 compressed/uncompressed. -/
def GinIndexPostingsBuilder.serialize (b : GinIndexPostingsBuilder) : List Nat :=
  let card := b.rowids.length
  if card < MIN_SIZE_FOR_ROARING_ENCODING then
    ARRAY_CONTAINER_MASK :: card :: b.rowids
  else if ROARING_ENCODING_COMPRESSION_CARDINALITY_THRESHOLD < card then
    (ROARING_CONTAINER_MASK + 2 * ROARING_COMPRESSED_MASK)
      :: roaringCompress (roaringWrite b.rowids)
  else
    (ROARING_CONTAINER_MASK + 2 * ROARING_UNCOMPRESSED_MASK)
      :: roaringWrite b.rowids

/-- Modelled from the spec: `GinIndexPostingsBuilder::deserialize` (body not
in the header).  Reads the header byte and dispatches on its two flag bits
to the matching decode path, returning the postings list (set of row
ids). -/
def GinIndexPostingsBuilder.deserialize (bs : List Nat) : Option (List Nat) :=
  match bs with
  | [] => none
  | header :: rest =>
    if header % 2 = ARRAY_CONTAINER_MASK then
      match rest with
      | [] => none
      | card :: ids => if ids.length = card then some ids else none
    else if header / 2 % 2 = ROARING_COMPRESSED_MASK then
      roaringRead (roaringDecompress rest)
    else
      roaringRead rest

/-! ## Segment descriptor and store (`GinIndexSegment`, `GinIndexStore`)

The store is embedded as a pure state record; each member function becomes a
state transformer.  File streams are embedded by their observable content:
the metadata file as the list of appended descriptors, the postings and
dictionary files by the write offsets they have reached. -/

/-- Embedding of `GinIndexSegment` with the default field values of the
header: `segment_id = 0`, `next_row_id = 1`, both offsets `0`. -/
structure GinIndexSegment where
  segment_id : Nat := 0
  next_row_id : Nat := 1
  postings_start_offset : Nat := 0
  dict_start_offset : Nat := 0
deriving Repr, DecidableEq

/-- Embedding of `GinIndexStore::GinIndexPostingsBuilderContainer`
(an `absl::flat_hash_map<std::string, GinIndexPostingsBuilderPtr>`) as an
association list with map semantics: at most one entry per term. -/
abbrev GinIndexPostingsBuilderContainer := List (String × GinIndexPostingsBuilder)

/-- Map lookup in the builder container. -/
def containerGet (c : GinIndexPostingsBuilderContainer) (term : String) :
    Option GinIndexPostingsBuilder :=
  (c.find? (fun p => p.1 == term)).map Prod.snd

/-- Map assignment `c[term] = b`: replaces the entry for `term` when one
exists, otherwise inserts a new one, as `operator[]` of a hash map does. -/
def containerSet (c : GinIndexPostingsBuilderContainer) (term : String)
    (b : GinIndexPostingsBuilder) : GinIndexPostingsBuilderContainer :=
  if c.any (fun p => p.1 == term) then
    c.map (fun p => if p.1 == term then (term, b) else p)
  else
    c ++ [(term, b)]

/-- Constant from the header: `UNLIMITED_SEGMENT_DIGESTION_THRESHOLD_BYTES = 0`. -/
def UNLIMITED_SEGMENT_DIGESTION_THRESHOLD_BYTES : Nat := 0

/-- Constant from the header: `FST_SIZE_COMPRESSION_THRESHOLD = 100_KiB`
("FST size less than 100KiB does not worth to compress"). -/
def FST_SIZE_COMPRESSION_THRESHOLD : Nat := 100 * 1024

/-- Modelled from the spec: the external compression codec
(`GinIndexCompressionFactory::zstdCodec`), a deterministic byte transform
inverted by `codecDecompress`; instantiated as the identity transform. -/
def codecCompress (bs : List Nat) : List Nat := bs

/-- Modelled from the spec: inverse transform of `codecCompress`. -/
def codecDecompress (bs : List Nat) : List Nat := bs

/-- Modelled from the spec: the dictionary write step of
`GinIndexStore::writeSegment` compresses the FST blob iff its size exceeds
`FST_SIZE_COMPRESSION_THRESHOLD`; returns the stored compression flag and
the stored bytes. -/
def writeFSTBlob (blob : List Nat) : Bool × List Nat :=
  if FST_SIZE_COMPRESSION_THRESHOLD < blob.length then (true, codecCompress blob)
  else (false, blob)

/-- Modelled from the spec: the dictionary read step of
`GinIndexStoreDeserializer::readSegmentDictionary` decompresses exactly when
the stored flag indicates compression. -/
def readFSTBlob (compressed : Bool) (stored : List Nat) : List Nat :=
  if compressed then codecDecompress stored else stored

/-- Ordered insertion of a (term, builder) pair by term. -/
def insertByTerm (p : String × GinIndexPostingsBuilder) :
    GinIndexPostingsBuilderContainer → GinIndexPostingsBuilderContainer
  | [] => [p]
  | q :: qs => if p.1 ≤ q.1 then p :: q :: qs else q :: insertByTerm p qs

/-- The container's entries sorted by term, the deterministic dictionary
layout `writeSegment` serializes. -/
def sortByTerm (c : GinIndexPostingsBuilderContainer) : GinIndexPostingsBuilderContainer :=
  c.foldr insertByTerm []

/-- Modelled from the spec: total postings bytes `writeSegment` appends to
the postings file for the current segment: every accumulated builder
serialized, in term-sorted order. -/
def segmentPostingsBytes (c : GinIndexPostingsBuilderContainer) : Nat :=
  ((sortByTerm c).map (fun p => p.2.serialize.length)).sum

/-- Modelled from the spec: the sorted (term, postings-offset) pairs fed to
the FST build primitive, each offset the running total of the serialized
postings bytes preceding that term within the segment. -/
def dictionaryPairs (c : GinIndexPostingsBuilderContainer) : List (String × Nat) :=
  ((sortByTerm c).foldl
    (fun acc p => (acc.1 ++ [(p.1, acc.2)], acc.2 + p.2.serialize.length)) ([], 0)).1

/-- Modelled from the spec: the external FST build primitive
`build(sorted (term, offset) pairs) -> blob`; only the blob's size matters
here, embedded as one symbol per pair offset. -/
def fstBuild (pairs : List (String × Nat)) : List Nat :=
  pairs.map Prod.snd

/-- Embedding of the writer-side state of `GinIndexStore`: counters, the
in-progress descriptor and builder container, the accumulated size, the
digestion threshold, and the metadata file contents (the descriptors
appended so far). -/
structure GinIndexStore where
  next_available_segment_id : Nat
  current_postings : GinIndexPostingsBuilderContainer
  current_segment : GinIndexSegment
  current_size : Nat
  segment_digestion_threshold_bytes : Nat
  metadata_file : List GinIndexSegment

/-- Modelled from the spec: a freshly constructed store for a part with no
existing index files: segment id 0 is taken by the first in-progress
segment, id 1 is the next available, row ids start at 1, nothing
accumulated, no descriptor appended yet. -/
def GinIndexStore.init (threshold : Nat) : GinIndexStore :=
  { next_available_segment_id := 1
    current_postings := []
    current_segment := {}
    current_size := 0
    segment_digestion_threshold_bytes := threshold
    metadata_file := [] }

/-- Modelled from the spec: `GinIndexStore::getNextRowIDRange(numIDs)`
atomically reserves `numIDs` consecutive row ids: returns the current
counter value and advances the counter by `numIDs`. -/
def GinIndexStore.getNextRowIDRange (s : GinIndexStore) (numIDs : Nat) :
    Nat × GinIndexStore :=
  (s.current_segment.next_row_id,
   { s with current_segment :=
      { s.current_segment with next_row_id := s.current_segment.next_row_id + numIDs } })

/-- Modelled from the spec: `GinIndexStore::getNextSegmentID()` reserves
(and persists) the next available segment id. -/
def GinIndexStore.getNextSegmentID (s : GinIndexStore) : Nat × GinIndexStore :=
  (s.next_available_segment_id,
   { s with next_available_segment_id := s.next_available_segment_id + 1 })

/-- Inline body from the header: `incrementCurrentSizeBy(sz)` adds `sz` to
`current_size`. -/
def GinIndexStore.incrementCurrentSizeBy (s : GinIndexStore) (sz : Nat) : GinIndexStore :=
  { s with current_size := s.current_size + sz }

/-- Modelled from the spec: `GinIndexStore::needToWriteCurrentSegment()`
(body not in the header): false when the threshold is the unlimited value 0,
otherwise true exactly when the accumulated size has reached the
threshold. -/
def GinIndexStore.needToWriteCurrentSegment (s : GinIndexStore) : Bool :=
  decide (s.segment_digestion_threshold_bytes ≠ UNLIMITED_SEGMENT_DIGESTION_THRESHOLD_BYTES)
    && decide (s.segment_digestion_threshold_bytes ≤ s.current_size)

/-- Inline body from the header: `setPostingsBuilder(term, builder)`
assigns `current_postings[term] = builder`, the hash map's
insert-or-replace assignment, embedded by `containerSet`. -/
def GinIndexStore.setPostingsBuilder (s : GinIndexStore) (term : String)
    (b : GinIndexPostingsBuilder) : GinIndexStore :=
  { s with current_postings := containerSet s.current_postings term b }

/-- Inline body from the header: `getPostingsListBuilder()` returns
`current_postings`. -/
def GinIndexStore.getPostingsListBuilder (s : GinIndexStore) :
    GinIndexPostingsBuilderContainer :=
  s.current_postings

/-- Modelled from the spec: `GinIndexStore::writeSegment()` serializes the
accumulated builders in term order, builds (and, per `writeFSTBlob`,
optionally compresses) the FST, appends the current descriptor to the
metadata file, then resets in-progress state: a fresh descriptor taking the
next segment id, its `next_row_id` continuing from the last assigned row
id and its offsets advanced past the bytes just written, an empty builder
container, and a zero size counter. -/
def GinIndexStore.writeSegment (s : GinIndexStore) : GinIndexStore :=
  let stored := writeFSTBlob (fstBuild (dictionaryPairs s.current_postings))
  let sid := s.getNextSegmentID
  { next_available_segment_id := sid.2.next_available_segment_id
    current_postings := []
    current_segment :=
      { segment_id := sid.1
        next_row_id := s.current_segment.next_row_id
        postings_start_offset :=
          s.current_segment.postings_start_offset + segmentPostingsBytes s.current_postings
        dict_start_offset := s.current_segment.dict_start_offset + 2 + stored.2.length }
    current_size := 0
    segment_digestion_threshold_bytes := s.segment_digestion_threshold_bytes
    metadata_file := s.metadata_file ++ [s.current_segment] }

/-- One writer-side operation on a store, for reasoning about arbitrary
operation sequences. -/
inductive StoreOp where
  | addRows (n : Nat)
  | incSize (sz : Nat)
  | setBuilder (term : String) (b : GinIndexPostingsBuilder)
  | writeSeg
deriving Repr

/-- Run one operation. -/
def execOp (s : GinIndexStore) : StoreOp → GinIndexStore
  | .addRows n => (s.getNextRowIDRange n).2
  | .incSize sz => s.incrementCurrentSizeBy sz
  | .setBuilder t b => s.setPostingsBuilder t b
  | .writeSeg => s.writeSegment

/-- Run a sequence of operations. -/
def execOps (s : GinIndexStore) (ops : List StoreOp) : GinIndexStore :=
  ops.foldl execOp s

/-- Writer-side invariant of a store: the descriptors already appended to
the metadata file are strictly increasing in segment id and non-decreasing
in starting row id, every one of them precedes the in-progress descriptor
in both orders, and the in-progress descriptor's id is below the next
available segment id. -/
def storeInv (s : GinIndexStore) : Prop :=
  List.Chain' (fun a b => a.segment_id < b.segment_id) s.metadata_file ∧
  List.Chain' (fun a b => a.next_row_id ≤ b.next_row_id) s.metadata_file ∧
  (∀ seg ∈ s.metadata_file, seg.segment_id < s.current_segment.segment_id) ∧
  (∀ seg ∈ s.metadata_file, seg.next_row_id ≤ s.current_segment.next_row_id) ∧
  s.current_segment.segment_id < s.next_available_segment_id

/-- Run a sequence of `getNextRowIDRange` requests, collecting each returned
(starting id, count) range. -/
def runRowIDRanges (s : GinIndexStore) : List Nat → List (Nat × Nat) × GinIndexStore
  | [] => ([], s)
  | n :: ns =>
    let r := s.getNextRowIDRange n
    let rest := runRowIDRanges r.2 ns
    ((r.1, n) :: rest.1, rest.2)

/-! ## Reader side (`GinIndexStoreDeserializer`) -/

/-- Reader-side view of one written segment: its id, its dictionary (the
FST embedded as an association list term → relative postings offset), its
postings start offset, and the postings-file content it can reach
(absolute offset → serialized postings bytes). -/
structure GinReaderSegment where
  segment_id : Nat
  dict : List (String × Nat)
  postings_start_offset : Nat
  postings_file : List (Nat × List Nat)

/-- Modelled from the spec: the external FST lookup primitive
`lookup(blob, term) -> optional offset`. -/
def fstLookup (d : List (String × Nat)) (term : String) : Option Nat :=
  (d.find? (fun p => p.1 == term)).map Prod.snd

/-- The serialized postings bytes found at an absolute offset of the
postings file. -/
def filePostingsAt (file : List (Nat × List Nat)) (off : Nat) : Option (List Nat) :=
  (file.find? (fun p => p.1 == off)).map Prod.snd

/-- Modelled from the spec:
`GinIndexStoreDeserializer::readSegmentedPostingsLists(term)`: for every
known segment, looks the term up in that segment's FST; a miss omits the
segment from the result, a hit seeks `postings_start_offset + offset` in
the postings file and deserializes the postings list there. -/
def readSegmentedPostingsLists (segs : List GinReaderSegment) (term : String) :
    List (Nat × Option (List Nat)) :=
  segs.filterMap (fun seg =>
    match fstLookup seg.dict term with
    | none => none
    | some off =>
        some (seg.segment_id,
          (filePostingsAt seg.postings_file (seg.postings_start_offset + off)).bind
            GinIndexPostingsBuilder.deserialize))

/-! ## Store factory (`GinIndexStoreFactory`) -/

/-- Embedding of the factory registry: stores keyed by (name, part path),
each store embedded by its identity (a serial number distinct across
constructions, drawn from `next_store`). -/
structure GinIndexStoreFactory where
  stores : List ((String × String) × Nat)
  next_store : Nat

/-- The factory singleton before any store has been registered. -/
def GinIndexStoreFactory.empty : GinIndexStoreFactory := ⟨[], 0⟩

/-- Modelled from the spec: `GinIndexStoreFactory::get(name, storage)`
returns the registered store for the (name, part path) key, or constructs
and registers a fresh one. -/
def GinIndexStoreFactory.get (f : GinIndexStoreFactory) (name part_path : String) :
    Nat × GinIndexStoreFactory :=
  match f.stores.find? (fun p => p.1 == (name, part_path)) with
  | some p => (p.2, f)
  | none => (f.next_store, ⟨((name, part_path), f.next_store) :: f.stores, f.next_store + 1⟩)

/-- Modelled from the spec: `GinIndexStoreFactory::remove(part_path)` erases
every registry entry under `part_path`. -/
def GinIndexStoreFactory.remove (f : GinIndexStoreFactory) (part_path : String) :
    GinIndexStoreFactory :=
  ⟨f.stores.filter (fun p => p.1.2 != part_path), f.next_store⟩

/-! ### Basic lemmas about the bitmap embedding -/

theorem insertSorted_mem (r x : Nat) (l : List Nat) :
    x ∈ insertSorted r l ↔ x = r ∨ x ∈ l := by
  induction l with
  | nil => simp [insertSorted]
  | cons a as ih =>
    by_cases h1 : r < a
    · simp [insertSorted, h1]
    · by_cases h2 : r = a
      · subst h2; simp [insertSorted, h1]
      · simp [insertSorted, h1, h2, ih]
        tauto

theorem insertSorted_sorted (r : Nat) (l : List Nat) (h : l.Sorted (· < ·)) :
    (insertSorted r l).Sorted (· < ·) := by
  induction l with
  | nil => simp [insertSorted]
  | cons a as ih =>
    rw [List.sorted_cons] at h
    by_cases h1 : r < a
    · have e : insertSorted r (a :: as) = r :: a :: as := by simp [insertSorted, h1]
      rw [e, List.sorted_cons]
      constructor
      · intro b hb
        rcases List.mem_cons.mp hb with hb | hb
        · exact hb ▸ h1
        · exact lt_trans h1 (h.1 b hb)
      · rw [List.sorted_cons]; exact h
    · by_cases h2 : r = a
      · have e : insertSorted r (a :: as) = a :: as := by simp [insertSorted, h1, h2]
        rw [e, List.sorted_cons]
        exact h
      · have e : insertSorted r (a :: as) = a :: insertSorted r as := by
          simp [insertSorted, h1, h2]
        rw [e, List.sorted_cons]
        constructor
        · intro b hb
          rw [insertSorted_mem] at hb
          rcases hb with hb | hb
          · omega
          · exact h.1 b hb
        · exact ih h.2

theorem buildFrom_go_sorted (l : List Nat) (b : GinIndexPostingsBuilder)
    (h : b.rowids.Sorted (· < ·)) :
    (l.foldl GinIndexPostingsBuilder.add b).rowids.Sorted (· < ·) := by
  induction l generalizing b with
  | nil => exact h
  | cons x xs ih =>
    exact ih _ (insertSorted_sorted x b.rowids h)

theorem buildFrom_sorted (l : List Nat) : (buildFrom l).rowids.Sorted (· < ·) := by
  exact buildFrom_go_sorted l GinIndexPostingsBuilder.empty (by simp [GinIndexPostingsBuilder.empty])

theorem buildFrom_go_mem (l : List Nat) (b : GinIndexPostingsBuilder) (x : Nat) :
    x ∈ (l.foldl GinIndexPostingsBuilder.add b).rowids ↔ x ∈ b.rowids ∨ x ∈ l := by
  induction l generalizing b with
  | nil => simp
  | cons a as ih =>
    simp only [List.foldl_cons, ih, GinIndexPostingsBuilder.add, insertSorted_mem,
      List.mem_cons]
    tauto

theorem buildFrom_mem (l : List Nat) (x : Nat) :
    x ∈ (buildFrom l).rowids ↔ x ∈ l := by
  simp [buildFrom, buildFrom_go_mem, GinIndexPostingsBuilder.empty]

theorem buildFrom_nodup (l : List Nat) : (buildFrom l).rowids.Nodup := by
  exact (buildFrom_sorted l).nodup

/-- Deserialization inverts serialization on any builder whose bitmap is in
canonical (sorted) form. -/
theorem deserialize_serialize (b : GinIndexPostingsBuilder) :
    GinIndexPostingsBuilder.deserialize b.serialize = some b.rowids := by
  unfold GinIndexPostingsBuilder.serialize
  by_cases h1 : b.rowids.length < MIN_SIZE_FOR_ROARING_ENCODING
  · simp [h1, GinIndexPostingsBuilder.deserialize, ARRAY_CONTAINER_MASK]
  · by_cases h2 : ROARING_ENCODING_COMPRESSION_CARDINALITY_THRESHOLD < b.rowids.length
    · simp [h1, h2, GinIndexPostingsBuilder.deserialize, ARRAY_CONTAINER_MASK,
        ROARING_CONTAINER_MASK, ROARING_COMPRESSED_MASK, roaringCompress,
        roaringDecompress, roaringWrite, roaringRead]
    · simp [h1, h2, GinIndexPostingsBuilder.deserialize, ARRAY_CONTAINER_MASK,
        ROARING_CONTAINER_MASK, ROARING_UNCOMPRESSED_MASK, ROARING_COMPRESSED_MASK,
        roaringWrite, roaringRead]

/-! ## Further lemmas about the bitmap embedding -/

theorem insertSorted_mem_eq (r : Nat) (l : List Nat) (hs : l.Sorted (· < ·)) (h : r ∈ l) :
    insertSorted r l = l := by
  induction l with
  | nil => cases h
  | cons a as ih =>
    rw [List.sorted_cons] at hs
    rcases List.mem_cons.mp h with h | h
    · subst h; simp [insertSorted]
    · have ha : a < r := hs.1 r h
      have h1 : ¬ r < a := by omega
      have h2 : ¬ r = a := by omega
      simp [insertSorted, h1, h2, ih hs.2 h]

theorem contains_iff_mem (b : GinIndexPostingsBuilder) (r : Nat) :
    b.contains r = true ↔ r ∈ b.rowids := by
  simp [GinIndexPostingsBuilder.contains]

/-! ## Claim theorems -/

/-- Claim C1: for every set of row ids inserted into a postings builder via
`add`, deserializing the bytes produced by `serialize` yields a postings
list equal to that set (order-independent), for every cardinality — the
universal quantification covers all three encoding branches. -/
theorem postings_builder_roundtrip (l : List Nat) :
    ∃ res, GinIndexPostingsBuilder.deserialize (buildFrom l).serialize = some res ∧
      ∀ r, r ∈ res ↔ r ∈ l :=
  ⟨(buildFrom l).rowids, deserialize_serialize _, fun r => buildFrom_mem l r⟩

/-- Claim C2: `serialize` chooses its encoding by cardinality: below
`MIN_SIZE_FOR_ROARING_ENCODING` (16) a flat sorted array of row ids,
otherwise the roaring container form, block-compressed exactly when the
cardinality exceeds `ROARING_ENCODING_COMPRESSION_CARDINALITY_THRESHOLD`
(5000); the one-byte header records the choice, letting `deserialize`
dispatch without external hints (third conjunct). -/
theorem serialize_encoding_by_cardinality (l : List Nat) :
    ((buildFrom l).serialize =
      if (buildFrom l).rowids.length < MIN_SIZE_FOR_ROARING_ENCODING then
        ARRAY_CONTAINER_MASK :: (buildFrom l).rowids.length :: (buildFrom l).rowids
      else if ROARING_ENCODING_COMPRESSION_CARDINALITY_THRESHOLD
          < (buildFrom l).rowids.length then
        (ROARING_CONTAINER_MASK + 2 * ROARING_COMPRESSED_MASK)
          :: roaringCompress (roaringWrite (buildFrom l).rowids)
      else
        (ROARING_CONTAINER_MASK + 2 * ROARING_UNCOMPRESSED_MASK)
          :: roaringWrite (buildFrom l).rowids) ∧
    (buildFrom l).rowids.Sorted (· < ·) ∧
    GinIndexPostingsBuilder.deserialize (buildFrom l).serialize =
      some (buildFrom l).rowids :=
  ⟨rfl, buildFrom_sorted l, deserialize_serialize _⟩

/-- Claim C5: the postings list held by a builder never contains
duplicates; `contains` is a membership test returning true exactly for
previously added ids; adding an already-present id leaves the builder
unchanged, and `add` is idempotent. -/
theorem builder_set_semantics (l : List Nat) (r : Nat) :
    (buildFrom l).rowids.Nodup ∧
    ((buildFrom l).contains r = true ↔ r ∈ l) ∧
    ((buildFrom l).contains r = true → (buildFrom l).add r = buildFrom l) ∧
    ((buildFrom l).add r).add r = (buildFrom l).add r := by
  refine ⟨buildFrom_nodup l, ?_, ?_, ?_⟩
  · rw [contains_iff_mem, buildFrom_mem]
  · intro h
    rw [contains_iff_mem] at h
    show GinIndexPostingsBuilder.mk _ = _
    rw [insertSorted_mem_eq r _ (buildFrom_sorted l) h]
  · show GinIndexPostingsBuilder.mk _ = GinIndexPostingsBuilder.mk _
    have hs := insertSorted_sorted r _ (buildFrom_sorted l)
    have hm : r ∈ insertSorted r (buildFrom l).rowids := by
      rw [insertSorted_mem]; exact Or.inl rfl
    show GinIndexPostingsBuilder.mk (insertSorted r (insertSorted r (buildFrom l).rowids)) = _
    rw [insertSorted_mem_eq r _ hs hm]

/-- Witness for C5 at a concrete input: 5 was added, so adding it again is
a no-op. -/
theorem builder_set_semantics_witness :
    (buildFrom [5, 7]).rowids.Nodup ∧ (buildFrom [5, 7]).add 5 = buildFrom [5, 7] :=
  ⟨(builder_set_semantics [5, 7] 5).1,
   (builder_set_semantics [5, 7] 5).2.2.1 (by decide)⟩

/-- Claim C4: with `segment_digestion_threshold_bytes = 0` (the unlimited
value), `needToWriteCurrentSegment` is false no matter how much size has
been accumulated; with a nonzero threshold it is true exactly when the
accumulated size has reached the threshold, stays true under further
accumulation, and `writeSegment` resets the size counter to zero. -/
theorem need_to_write_current_segment_spec (s : GinIndexStore) (sz : Nat) (szs : List Nat) :
    (s.segment_digestion_threshold_bytes = UNLIMITED_SEGMENT_DIGESTION_THRESHOLD_BYTES →
      s.needToWriteCurrentSegment = false) ∧
    (s.segment_digestion_threshold_bytes ≠ UNLIMITED_SEGMENT_DIGESTION_THRESHOLD_BYTES →
      (s.needToWriteCurrentSegment = true ↔
        s.segment_digestion_threshold_bytes ≤ s.current_size)) ∧
    (s.needToWriteCurrentSegment = true →
      (s.incrementCurrentSizeBy sz).needToWriteCurrentSegment = true) ∧
    s.writeSegment.current_size = 0 ∧
    (s.segment_digestion_threshold_bytes = UNLIMITED_SEGMENT_DIGESTION_THRESHOLD_BYTES →
      (szs.foldl GinIndexStore.incrementCurrentSizeBy s).needToWriteCurrentSegment = false) := by
  refine ⟨?_, ?_, ?_, rfl, ?_⟩
  · intro h
    simp [GinIndexStore.needToWriteCurrentSegment, h]
  · intro h
    simp [GinIndexStore.needToWriteCurrentSegment, h]
  · intro h
    simp only [GinIndexStore.needToWriteCurrentSegment, Bool.and_eq_true, decide_eq_true_eq]
      at h ⊢
    exact ⟨h.1, le_trans h.2 (Nat.le_add_right _ _)⟩
  · intro h
    induction szs generalizing s with
    | nil =>
      simp [GinIndexStore.needToWriteCurrentSegment, h]
    | cons a as ih =>
      exact ih _ h

/-- Witness for C4 at concrete stores: a store with the unlimited threshold
never requests a flush even after accumulating size, and one with threshold
10 requests a flush once 10 bytes have been digested. -/
theorem need_to_write_current_segment_spec_witness :
    (([7, 9000].foldl GinIndexStore.incrementCurrentSizeBy
        (GinIndexStore.init 0)).needToWriteCurrentSegment = false) ∧
    (((GinIndexStore.init 10).incrementCurrentSizeBy 10).needToWriteCurrentSegment = true) :=
  ⟨(need_to_write_current_segment_spec (GinIndexStore.init 0) 0 [7, 9000]).2.2.2.2 rfl,
   ((need_to_write_current_segment_spec
      ((GinIndexStore.init 10).incrementCurrentSizeBy 10) 0 []).2.1
        (by decide)).mpr (by decide)⟩

/-- Claim C7: when `writeSegment` builds a segment's dictionary, the FST
blob is compressed if and only if its size exceeds
`FST_SIZE_COMPRESSION_THRESHOLD` (100 KiB); blobs of 100 KiB or less are
stored uncompressed, and the stored flag makes the reader decompress
exactly the compressed ones, recovering the original blob. -/
theorem fst_blob_compression_threshold (blob : List Nat) :
    ((writeFSTBlob blob).1 = true ↔ FST_SIZE_COMPRESSION_THRESHOLD < blob.length) ∧
    (¬ FST_SIZE_COMPRESSION_THRESHOLD < blob.length → (writeFSTBlob blob).2 = blob) ∧
    readFSTBlob (writeFSTBlob blob).1 (writeFSTBlob blob).2 = blob := by
  by_cases h : FST_SIZE_COMPRESSION_THRESHOLD < blob.length <;>
    simp [writeFSTBlob, readFSTBlob, codecCompress, codecDecompress, h]

/-- Witness for C7 at a concrete input: a 3-symbol blob is at most 100 KiB,
hence stored uncompressed. -/
theorem fst_blob_compression_threshold_witness :
    (writeFSTBlob [1, 2, 3]).2 = [1, 2, 3] :=
  (fst_blob_compression_threshold [1, 2, 3]).2.1 (by decide)

theorem find?_append_aux {α : Type} (p : α → Bool) (l l' : List α) :
    (l ++ l').find? p = ((l.find? p).orElse (fun _ => l'.find? p)) := by
  induction l with
  | nil => simp [Option.orElse]
  | cons a as ih =>
    cases hpa : p a
    · simpa [List.find?_cons, hpa] using ih
    · simp [List.find?_cons, hpa, Option.orElse]

theorem find?_map_set_self (c : GinIndexPostingsBuilderContainer) (t : String)
    (b : GinIndexPostingsBuilder) :
    (c.map (fun p => if p.1 == t then (t, b) else p)).find? (fun p => p.1 == t) =
      if c.any (fun p => p.1 == t) then some (t, b) else none := by
  induction c with
  | nil => rfl
  | cons q qs ih =>
    by_cases hq : q.1 = t
    · have e1 : (if (q.1 == t) = true then (t, b) else q) = (t, b) := by simp [hq]
      simp only [List.map_cons, e1, List.any_cons]
      rw [List.find?_cons_of_pos]
      · simp [hq]
      · simp
    · have e1 : (if (q.1 == t) = true then (t, b) else q) = q := by simp [hq]
      simp only [List.map_cons, e1, List.any_cons]
      rw [List.find?_cons_of_neg]
      · rw [ih]
        have e2 : (q.1 == t) = false := by simp [hq]
        simp only [e2, Bool.false_or]
      · simp [hq]

theorem find?_map_set_other (c : GinIndexPostingsBuilderContainer) (t t' : String)
    (hne : t' ≠ t) (b : GinIndexPostingsBuilder) :
    (c.map (fun p => if p.1 == t then (t, b) else p)).find? (fun p => p.1 == t') =
      c.find? (fun p => p.1 == t') := by
  induction c with
  | nil => rfl
  | cons q qs ih =>
    by_cases hq : q.1 = t
    · have e1 : (if (q.1 == t) = true then (t, b) else q) = (t, b) := by simp [hq]
      simp only [List.map_cons, e1]
      rw [List.find?_cons_of_neg, List.find?_cons_of_neg]
      · exact ih
      · simp [hq]
        exact fun h => hne h.symm
      · simp
        exact fun h => hne h.symm
    · have e1 : (if (q.1 == t) = true then (t, b) else q) = q := by simp [hq]
      simp only [List.map_cons, e1]
      cases hq' : (q.1 == t')
      · rw [List.find?_cons_of_neg, List.find?_cons_of_neg]
        · exact ih
        · simp [hq']
        · simp [hq']
      · rw [List.find?_cons_of_pos, List.find?_cons_of_pos]
        · simp [hq']
        · simp [hq']

theorem containerGet_set (c : GinIndexPostingsBuilderContainer) (t t' : String)
    (b : GinIndexPostingsBuilder) :
    containerGet (containerSet c t b) t' =
      if t' = t then some b else containerGet c t' := by
  by_cases he : t' = t
  · subst he
    by_cases hc : c.any (fun p => p.1 == t') = true
    · simp only [containerSet, containerGet, if_pos hc, if_pos rfl]
      rw [find?_map_set_self]
      simp [hc]
    · simp only [containerSet, containerGet, if_neg hc, if_pos rfl]
      rw [find?_append_aux]
      have hnone : c.find? (fun p => p.1 == t') = none := by
        rw [List.find?_eq_none]
        intro x hx hpx
        exact hc (List.any_eq_true.mpr ⟨x, hx, hpx⟩)
      simp [hnone, Option.orElse]
  · rw [if_neg he]
    by_cases hc : c.any (fun p => p.1 == t) = true
    · simp only [containerSet, containerGet, if_pos hc]
      rw [find?_map_set_other c t t' he b]
    · simp only [containerSet, containerGet, if_neg hc]
      rw [find?_append_aux]
      have hsingle : ([((t, b) : String × GinIndexPostingsBuilder)].find?
          (fun p => p.1 == t')) = none := by
        rw [List.find?_eq_none]
        intro x hx hpx
        rcases List.mem_singleton.mp hx with rfl
        simp at hpx
        exact he hpx.symm
      rw [hsingle]
      cases hfc : c.find? (fun p => p.1 == t') <;> simp [Option.orElse]

/-- Claim C10: `setPostingsBuilder(term, builder)` on a store whose
container may already hold a builder for that term replaces the stored
builder (last call wins), leaves every other term's builder unchanged, and
`getPostingsListBuilder()` afterwards maps the term to the most recently
set builder. -/
theorem set_postings_builder_last_wins (s : GinIndexStore) (term t' : String)
    (b : GinIndexPostingsBuilder) :
    (containerGet ((s.setPostingsBuilder term b).getPostingsListBuilder) term = some b) ∧
    (t' ≠ term →
      containerGet ((s.setPostingsBuilder term b).getPostingsListBuilder) t' =
        containerGet s.getPostingsListBuilder t') := by
  constructor
  · rw [GinIndexStore.setPostingsBuilder, GinIndexStore.getPostingsListBuilder,
      containerGet_set]
    simp
  · intro hne
    rw [GinIndexStore.setPostingsBuilder, GinIndexStore.getPostingsListBuilder,
      containerGet_set, if_neg hne]
    rfl

/-- Witness for C10 at a concrete input: after setting a second builder for
term "a" on a store already holding one, "a" maps to the new builder and
the unrelated term "z" is unchanged. -/
theorem set_postings_builder_last_wins_witness :
    (containerGet ((((GinIndexStore.init 0).setPostingsBuilder "a"
        (buildFrom [1])).setPostingsBuilder "a"
        (buildFrom [2])).getPostingsListBuilder) "a" = some (buildFrom [2])) ∧
    (containerGet ((((GinIndexStore.init 0).setPostingsBuilder "z"
        (buildFrom [3])).setPostingsBuilder "a"
        (buildFrom [2])).getPostingsListBuilder) "z" =
      containerGet ((GinIndexStore.init 0).setPostingsBuilder "z"
        (buildFrom [3])).getPostingsListBuilder "z") :=
  ⟨(set_postings_builder_last_wins ((GinIndexStore.init 0).setPostingsBuilder "a"
      (buildFrom [1])) "a" "z" (buildFrom [2])).1,
   (set_postings_builder_last_wins ((GinIndexStore.init 0).setPostingsBuilder "z"
      (buildFrom [3])) "a" "z" (buildFrom [2])).2 (by decide)⟩

/-- Claim C8: `readSegmentedPostingsLists(term)` has an entry exactly for
those segments whose FST contains the term; a segment in which the term is
absent is omitted, and a term present in no segment yields an empty result
rather than an error. -/
theorem read_segmented_postings_lists_entries (segs : List GinReaderSegment) (term : String) :
    (∀ sid, (∃ v, (sid, v) ∈ readSegmentedPostingsLists segs term) ↔
      (∃ seg ∈ segs, seg.segment_id = sid ∧ fstLookup seg.dict term ≠ none)) ∧
    ((∀ seg ∈ segs, fstLookup seg.dict term = none) →
      readSegmentedPostingsLists segs term = []) := by
  constructor
  · intro sid
    constructor
    · rintro ⟨v, hv⟩
      rw [readSegmentedPostingsLists, List.mem_filterMap] at hv
      rcases hv with ⟨seg, hseg, hf⟩
      refine ⟨seg, hseg, ?_, ?_⟩
      · cases hl : fstLookup seg.dict term with
        | none => rw [hl] at hf; cases hf
        | some off =>
          rw [hl] at hf
          simp only [Option.some.injEq, Prod.mk.injEq] at hf
          exact hf.1
      · cases hl : fstLookup seg.dict term with
        | none => rw [hl] at hf; cases hf
        | some off => simp
    · rintro ⟨seg, hseg, hsid, hne⟩
      cases hl : fstLookup seg.dict term with
      | none => exact absurd hl hne
      | some off =>
        refine ⟨(filePostingsAt seg.postings_file (seg.postings_start_offset + off)).bind
          GinIndexPostingsBuilder.deserialize, ?_⟩
        rw [readSegmentedPostingsLists, List.mem_filterMap]
        exact ⟨seg, hseg, by rw [hl, hsid]⟩
  · intro hall
    rw [readSegmentedPostingsLists, List.filterMap_eq_nil_iff]
    intro seg hseg
    rw [hall seg hseg]

/-- Witness for C8 at a concrete input: a term absent from the only
segment's FST yields the empty result. -/
theorem read_segmented_postings_lists_entries_witness :
    readSegmentedPostingsLists [⟨0, [("cat", 0)], 0, []⟩] "dog" = [] :=
  (read_segmented_postings_lists_entries [⟨0, [("cat", 0)], 0, []⟩] "dog").2
    (by decide)

theorem find?_filter_remove_none (l : List ((String × String) × Nat)) (name path : String) :
    ((l.filter (fun p => p.1.2 != path)).find? (fun p => p.1 == (name, path))) = none := by
  rw [List.find?_eq_none]
  intro x hx
  have hx2 := (List.mem_filter.mp hx).2
  simp only [bne_iff_ne, ne_eq] at hx2
  simp only [beq_iff_eq]
  intro he
  exact hx2 (by rw [he])

/-- Claim C9: two `get(name, storage)` calls with the same (name, part
path) key return the same underlying store instance (and the second call
leaves the registry unchanged); after `remove(part_path)` erases the
entries under that path, a subsequent `get()` for the key constructs and
registers a fresh store rather than returning the previously cached
one.  The hypothesis is the registry invariant that every cached instance
was drawn from the serial counter. -/
theorem factory_get_identity (f : GinIndexStoreFactory) (name path : String)
    (hwf : ∀ p ∈ f.stores, p.2 < f.next_store) :
    (((f.get name path).2.get name path).1 = (f.get name path).1 ∧
     ((f.get name path).2.get name path).2 = (f.get name path).2) ∧
    ((((f.get name path).2.remove path).get name path).1 ≠ (f.get name path).1) := by
  cases hf : f.stores.find? (fun p => p.1 == (name, path)) with
  | some p =>
    have hmem : p ∈ f.stores := List.mem_of_find?_eq_some hf
    have hlt : p.2 < f.next_store := hwf p hmem
    refine ⟨⟨?_, ?_⟩, ?_⟩
    · simp [GinIndexStoreFactory.get, hf]
    · simp [GinIndexStoreFactory.get, hf]
    · simp only [GinIndexStoreFactory.get, hf, GinIndexStoreFactory.remove,
        find?_filter_remove_none]
      omega
  | none =>
    have hhead : ((((name, path), f.next_store) : (String × String) × Nat).1
        == (name, path)) = true := by simp
    have hcons : List.find? (fun p => p.1 == (name, path))
        ((((name, path), f.next_store) : (String × String) × Nat) :: f.stores) =
          some ((name, path), f.next_store) :=
      List.find?_cons_of_pos _ hhead
    refine ⟨⟨?_, ?_⟩, ?_⟩
    · simp only [GinIndexStoreFactory.get, hf, hcons]
    · simp only [GinIndexStoreFactory.get, hf, hcons]
    · simp only [GinIndexStoreFactory.get, hf, GinIndexStoreFactory.remove,
        find?_filter_remove_none]
      omega

/-- Witness for C9: at the empty registry (where the serial invariant is
vacuous), a repeated `get` returns the cached instance, and after `remove`
a fresh one is constructed. -/
theorem factory_get_identity_witness :
    (((GinIndexStoreFactory.empty.get "idx" "part").2.get "idx" "part").1 =
      (GinIndexStoreFactory.empty.get "idx" "part").1) ∧
    ((((GinIndexStoreFactory.empty.get "idx" "part").2.remove "part").get "idx" "part").1 ≠
      (GinIndexStoreFactory.empty.get "idx" "part").1) :=
  ⟨(factory_get_identity GinIndexStoreFactory.empty "idx" "part"
      (by intro p hp; cases hp)).1.1,
   (factory_get_identity GinIndexStoreFactory.empty "idx" "part"
      (by intro p hp; cases hp)).2⟩

theorem runRowIDRanges_go (ns : List Nat) (s : GinIndexStore) :
    (runRowIDRanges s ns).2.current_segment.next_row_id
      = s.current_segment.next_row_id + ns.sum ∧
    (runRowIDRanges s ns).1.map Prod.snd = ns ∧
    (∀ p ∈ (runRowIDRanges s ns).1,
       s.current_segment.next_row_id ≤ p.1 ∧
       p.1 + p.2 ≤ s.current_segment.next_row_id + ns.sum) ∧
    List.Pairwise (fun a b => a.1 + a.2 ≤ b.1) (runRowIDRanges s ns).1 ∧
    (∀ r, (∃ p ∈ (runRowIDRanges s ns).1, p.1 ≤ r ∧ r < p.1 + p.2) ↔
       (s.current_segment.next_row_id ≤ r ∧
        r < s.current_segment.next_row_id + ns.sum)) := by
  induction ns generalizing s with
  | nil =>
    refine ⟨by simp [runRowIDRanges], rfl, ?_, List.Pairwise.nil, ?_⟩
    · intro p hp; cases hp
    · intro r
      constructor
      · rintro ⟨p, hp, _⟩; cases hp
      · rintro ⟨h1, h2⟩; simp at h2; omega
  | cons n ms ih =>
    obtain ⟨ih1, ih2, ih3, ih4, ih5⟩ := ih (s.getNextRowIDRange n).2
    have hc : (s.getNextRowIDRange n).2.current_segment.next_row_id =
        s.current_segment.next_row_id + n := rfl
    have hrun : runRowIDRanges s (n :: ms) =
        ((s.current_segment.next_row_id, n) ::
          (runRowIDRanges (s.getNextRowIDRange n).2 ms).1,
         (runRowIDRanges (s.getNextRowIDRange n).2 ms).2) := rfl
    rw [hrun]
    dsimp only
    refine ⟨?_, ?_, ?_, ?_, ?_⟩
    · simp only [List.sum_cons]
      omega
    · simp [ih2]
    · intro p hp
      rcases List.mem_cons.mp hp with rfl | hp
      · simp only [List.sum_cons]
        omega
      · have h3 := ih3 p hp
        simp only [List.sum_cons]
        omega
    · refine List.Pairwise.cons ?_ ih4
      intro p hp
      have h3 := ih3 p hp
      omega
    · intro r
      simp only [List.sum_cons]
      constructor
      · rintro ⟨p, hp, hle, hlt⟩
        rcases List.mem_cons.mp hp with rfl | hp
        · simp only at hle hlt
          omega
        · have h5 := (ih5 r).mp ⟨p, hp, hle, hlt⟩
          omega
      · rintro ⟨h1, h2⟩
        by_cases hr : r < s.current_segment.next_row_id + n
        · exact ⟨(s.current_segment.next_row_id, n), List.mem_cons_self _ _, h1, hr⟩
        · obtain ⟨p, hp, h3, h4⟩ := (ih5 r).mpr ⟨by omega, by omega⟩
          exact ⟨p, List.mem_cons_of_mem _ hp, h3, h4⟩

/-- Claim C3: over any sequence of `getNextRowIDRange(n)` calls on one
store, each call returns the starting id of a range of `n` consecutive row
ids, no two returned ranges overlap (each range ends at or before the next
begins), and the union of all returned ranges is exactly the contiguous
interval from 1 to the total number of assigned ids, with no gaps. -/
theorem get_next_row_id_range_partition (threshold : Nat) (ns : List Nat) :
    ((runRowIDRanges (GinIndexStore.init threshold) ns).1.map Prod.snd = ns) ∧
    List.Pairwise (fun a b => a.1 + a.2 ≤ b.1)
      (runRowIDRanges (GinIndexStore.init threshold) ns).1 ∧
    (∀ r, (∃ p ∈ (runRowIDRanges (GinIndexStore.init threshold) ns).1,
        p.1 ≤ r ∧ r < p.1 + p.2) ↔ (1 ≤ r ∧ r ≤ ns.sum)) := by
  obtain ⟨_, h2, _, h4, h5⟩ := runRowIDRanges_go ns (GinIndexStore.init threshold)
  refine ⟨h2, h4, ?_⟩
  intro r
  rw [h5 r]
  show 1 ≤ r ∧ r < 1 + ns.sum ↔ _
  omega

theorem storeInv_init (threshold : Nat) : storeInv (GinIndexStore.init threshold) := by
  refine ⟨List.chain'_nil, List.chain'_nil, ?_, ?_, ?_⟩
  · intro seg hseg; cases hseg
  · intro seg hseg; cases hseg
  · exact Nat.zero_lt_one

theorem storeInv_execOp (s : GinIndexStore) (op : StoreOp) (h : storeInv s) :
    storeInv (execOp s op) := by
  obtain ⟨h1, h2, h3, h4, h5⟩ := h
  cases op with
  | addRows n =>
    refine ⟨h1, h2, h3, ?_, h5⟩
    intro seg hseg
    have := h4 seg hseg
    show seg.next_row_id ≤ s.current_segment.next_row_id + n
    omega
  | incSize sz => exact ⟨h1, h2, h3, h4, h5⟩
  | setBuilder t b => exact ⟨h1, h2, h3, h4, h5⟩
  | writeSeg =>
    have hlastmem : ∀ x ∈ s.metadata_file.getLast?, x ∈ s.metadata_file := by
      intro x hx
      obtain ⟨hne, he⟩ := List.mem_getLast?_eq_getLast hx
      exact he ▸ List.getLast_mem hne
    refine ⟨?_, ?_, ?_, ?_, ?_⟩
    · show List.Chain' _ (s.metadata_file ++ [s.current_segment])
      rw [List.chain'_append]
      refine ⟨h1, List.chain'_singleton _, ?_⟩
      intro x hx y hy
      simp only [List.head?_cons, Option.mem_def, Option.some.injEq] at hy
      subst hy
      exact h3 x (hlastmem x hx)
    · show List.Chain' _ (s.metadata_file ++ [s.current_segment])
      rw [List.chain'_append]
      refine ⟨h2, List.chain'_singleton _, ?_⟩
      intro x hx y hy
      simp only [List.head?_cons, Option.mem_def, Option.some.injEq] at hy
      subst hy
      exact h4 x (hlastmem x hx)
    · show ∀ seg ∈ s.metadata_file ++ [s.current_segment],
        seg.segment_id < s.next_available_segment_id
      intro seg hseg
      rcases List.mem_append.mp hseg with hm | hm
      · exact lt_trans (h3 seg hm) h5
      · rcases List.mem_singleton.mp hm with rfl
        exact h5
    · show ∀ seg ∈ s.metadata_file ++ [s.current_segment],
        seg.next_row_id ≤ s.current_segment.next_row_id
      intro seg hseg
      rcases List.mem_append.mp hseg with hm | hm
      · exact h4 seg hm
      · rcases List.mem_singleton.mp hm with rfl
        exact le_refl _
    · exact Nat.lt_succ_self _

theorem storeInv_execOps (ops : List StoreOp) (s : GinIndexStore) (h : storeInv s) :
    storeInv (execOps s ops) := by
  induction ops generalizing s with
  | nil => exact h
  | cons op rest ih => exact ih _ (storeInv_execOp s op h)

/-- Claim C6: over any operation sequence on one store, the segment
descriptors appended to the metadata file by successive `writeSegment`
calls have strictly increasing segment ids and non-decreasing starting row
ids; and immediately after a `writeSegment` the in-progress state is
reset: the old descriptor has been appended, the builder container is
empty, the size counter is zero, and the fresh descriptor's `next_row_id`
continues from the last assigned row id. -/
theorem write_segment_metadata_monotone (threshold : Nat) (ops : List StoreOp) :
    List.Chain' (fun a b => a.segment_id < b.segment_id)
      (execOps (GinIndexStore.init threshold) ops).metadata_file ∧
    List.Chain' (fun a b => a.next_row_id ≤ b.next_row_id)
      (execOps (GinIndexStore.init threshold) ops).metadata_file ∧
    (execOps (GinIndexStore.init threshold) (ops ++ [StoreOp.writeSeg])).metadata_file =
      (execOps (GinIndexStore.init threshold) ops).metadata_file ++
        [(execOps (GinIndexStore.init threshold) ops).current_segment] ∧
    (execOps (GinIndexStore.init threshold) (ops ++ [StoreOp.writeSeg])).current_postings
      = [] ∧
    (execOps (GinIndexStore.init threshold) (ops ++ [StoreOp.writeSeg])).current_size = 0 ∧
    (execOps (GinIndexStore.init threshold)
        (ops ++ [StoreOp.writeSeg])).current_segment.next_row_id =
      (execOps (GinIndexStore.init threshold) ops).current_segment.next_row_id := by
  obtain ⟨h1, h2, _, _, _⟩ :=
    storeInv_execOps ops (GinIndexStore.init threshold) (storeInv_init threshold)
  have happ : execOps (GinIndexStore.init threshold) (ops ++ [StoreOp.writeSeg]) =
      (execOps (GinIndexStore.init threshold) ops).writeSegment := by
    simp [execOps, List.foldl_append, execOp]
  exact ⟨h1, h2, by rw [happ]; rfl, by rw [happ]; rfl, by rw [happ]; rfl,
    by rw [happ]; rfl⟩

end GinIndex
